import Mathlib

/-!
Verification of the `synqed-samples` repository's maker/MDAP Towers-of-Hanoi
demo (`src/api/examples/maker_hanoi_20_disks.py`) against its natural-language
specification.

The Hanoi domain adapter (state, transition, validator, ground truth, prompt
format, response parsing) is embedded directly from the Python source.  The
MDAP engine itself (`RedFlagger`, `Voter`, `MdapExecutor`) is imported by the
demo from the `synqed` package, whose implementation is not part of the given
sources; those components are modelled from the specification (each such
definition is marked `Modelled from the spec:`).
-/

namespace SynqedSamples

/-- Towers-of-Hanoi state, embedding the Python class `HanoiState`.
`pegs` is a list of three lists, one per peg; within a peg, the bottom disk
is first and the top disk is last, exactly as in the Python list
representation (Python appends/pops at the end of the list). -/
structure HanoiState where
  numDisks : Nat
  pegs : List (List Int)
deriving DecidableEq

/-- The initial peg `list(range(num_disks, 0, -1))`: disks
`[n, n-1, ..., 1]`, largest at the bottom. -/
def descList : Nat → List Int
  | 0 => []
  | k + 1 => ((k : Int) + 1) :: descList k

/-- `HanoiState.__init__`: all disks start on peg 0. -/
def HanoiState.init (numDisks : Nat) : HanoiState :=
  { numDisks := numDisks, pegs := [descList numDisks, [], []] }

/-- Peg `i` of a state (Python `self.pegs[i]`; out-of-range reads are
guarded at use sites just as Python raises `IndexError`). -/
def HanoiState.pegAt (s : HanoiState) (i : Nat) : List Int :=
  s.pegs.getD i []

/-- The successful outcome of `HanoiState.move`: pop the top of `from_peg`,
then append the disk to `to_peg` (sequentially, as the Python mutation
does — so `from_peg == to_peg` pops and re-appends the same disk). -/
def HanoiState.movedState (s : HanoiState) (disk : Int) (fromPeg toPeg : Nat) :
    HanoiState :=
  let pegs1 := s.pegs.set fromPeg (s.pegs.getD fromPeg []).dropLast
  { numDisks := s.numDisks,
    pegs := pegs1.set toPeg (pegs1.getD toPeg [] ++ [disk]) }

/-- The Python condition
`self.pegs[to_peg] and self.pegs[to_peg][-1] < disk`: the target peg is
non-empty and its top disk is smaller than the moved disk. -/
def topBlocks (tp : List Int) (disk : Int) : Bool :=
  match tp.getLast? with
  | some x => decide (x < disk)
  | none => false

/-- Embedding of `HanoiState.move`.  The Python method raises on:
an out-of-range peg index (`IndexError`, raised by the subscript itself,
in the order the subscripts are evaluated), a disk that is not on
`from_peg`, a disk that is not the top of `from_peg`, and a non-empty
`to_peg` whose top disk is smaller than the moved disk. -/
def HanoiState.move (s : HanoiState) (disk : Int) (fromPeg toPeg : Nat) :
    Except String HanoiState :=
  if fromPeg < s.pegs.length then
    if disk ∉ s.pegs.getD fromPeg [] then .error "disk not on peg"
    else if (s.pegs.getD fromPeg []).getLast? ≠ some disk then
      .error "disk is not on top of peg"
    else if toPeg < s.pegs.length then
      if topBlocks (s.pegs.getD toPeg []) disk then
        .error "cannot place disk on smaller disk"
      else .ok (s.movedState disk fromPeg toPeg)
    else .error "peg index out of range"
  else .error "peg index out of range"

/-- `HanoiState.is_solved`: all disks on peg 2
(`len(self.pegs[2]) == self.num_disks`). -/
def HanoiState.is_solved (s : HanoiState) : Bool :=
  (s.pegs.getD 2 []).length = s.numDisks

/-- `HanoiState.to_list`: the list representation (Python returns copies;
copies of immutable values are the values themselves). -/
def HanoiState.to_list (s : HanoiState) : List (List Int) :=
  s.pegs

/-- `HanoiState.from_list`: `num_disks` is the total number of disks across
the given pegs and the pegs are taken as given. -/
def HanoiState.from_list (pegs : List (List Int)) : HanoiState :=
  { numDisks := (pegs.map List.length).sum, pegs := pegs }

/-- Embedding of `hanoi_validator(final_state, actions)`.
Note the Python computes `num_disks` as
`sum(len(peg) for peg in [[]] * 3)`, which is `0`, followed by
`num_disks = max(num_disks, len(peg))` over the pegs — i.e. the MAXIMUM peg
length, not the total number of disks. -/
def hanoi_validator {β : Type} (final_state : List (List Int))
    (actions : List β) : Bool × String :=
  let num_disks := final_state.foldl (fun acc peg => max acc peg.length) 0
  if (final_state.getD 2 []).length ≠ num_disks then
    (false, "wrong number of disks on peg 2")
  else if actions.length ≠ 2 ^ num_disks - 1 then
    (false, "wrong number of moves")
  else (true, "")

/-- First peg (scanning pegs in order, indices starting at `i`) whose top
disk is disk 1 — the `for peg_idx, peg in enumerate(state)` loop of
`compute_hanoi_ground_truth` (`if peg and peg[-1] == 1`). -/
def find_disk1_aux : List (List Int) → Nat → Option Nat
  | [], _ => none
  | peg :: rest, i =>
      if peg.getLast? = some 1 then some i else find_disk1_aux rest (i + 1)

/-- Inner loop of the second branch of `compute_hanoi_ground_truth`:
`for to_peg_idx in range(3)`, skipping `from_peg_idx`, returning the first
target peg that is empty or whose top disk is larger than `disk`. -/
def findToPeg (state : List (List Int)) (disk : Int) (fromIdx : Nat) :
    List Nat → Option (Int × Nat × Nat)
  | [] => none
  | t :: ts =>
      if t = fromIdx then findToPeg state disk fromIdx ts
      else
        match (state.getD t []).getLast? with
        | none => some (disk, fromIdx, t)
        | some x =>
            if disk < x then some (disk, fromIdx, t)
            else findToPeg state disk fromIdx ts

/-- Outer loop of the second branch of `compute_hanoi_ground_truth`:
scan source pegs in order, skipping empty pegs and pegs whose top is
disk 1, and return the first legal move found. -/
def findOtherAux (state : List (List Int)) :
    List (List Int) → Nat → Option (Int × Nat × Nat)
  | [], _ => none
  | peg :: rest, i =>
      match peg.getLast? with
      | none => findOtherAux state rest (i + 1)
      | some disk =>
          if disk = 1 then findOtherAux state rest (i + 1)
          else
            match findToPeg state disk i [0, 1, 2] with
            | some m => some m
            | none => findOtherAux state rest (i + 1)

/-- The "legal move not involving disk 1" search branch of
`compute_hanoi_ground_truth`. -/
def findOtherMove (state : List (List Int)) : Option (Int × Nat × Nat) :=
  findOtherAux state state 0

/-- Embedding of `compute_hanoi_ground_truth(state, num_disks)`: if disk 1
is the top disk of some peg, move it clockwise (`(p + 2) % 3`); otherwise
search for the first legal move not involving disk 1; return `None` when
no move exists.  (`num_disks` is unused by the Python body as well.) -/
def compute_hanoi_ground_truth (state : List (List Int)) (_numDisks : Nat) :
    Option (Int × Nat × Nat) :=
  match find_disk1_aux state 0 with
  | some p => some (1, p, (p + 2) % 3)
  | none => findOtherMove state

/-! ### List index helper lemmas -/

theorem getD_set_self {α : Type} : ∀ (l : List α) (i : Nat) (x d : α),
    i < l.length → (l.set i x).getD i d = x
  | _ :: _, 0, _, _, _ => rfl
  | _ :: t, i + 1, x, d, h => getD_set_self t i x d (Nat.lt_of_succ_lt_succ h)

theorem getD_set_ne {α : Type} : ∀ (l : List α) (i j : Nat) (x d : α),
    i ≠ j → (l.set i x).getD j d = l.getD j d
  | [], _, _, _, _, _ => rfl
  | _ :: _, 0, 0, _, _, h => absurd rfl h
  | _ :: _, 0, _ + 1, _, _, _ => rfl
  | _ :: _, _ + 1, 0, _, _, _ => rfl
  | _ :: t, i + 1, j + 1, x, d, h =>
      getD_set_ne t i j x d (fun e => h (congrArg Nat.succ e))

/-! ### C2: the terminal validator -/

/-- **C2** (code bug): `hanoi_validator` computes the number of disks as the
maximum peg length, so for the final state `[[1], [], [2]]` — in which disk 1
lies on peg 0 — together with a single action it returns ok, although the
function's own docstring says it checks that all disks are on peg 2 (and
that the number of moves is `2^d - 1` for `d` the number of disks, here
`d = 2` and `2^2 - 1 = 3 ≠ 1`). -/
theorem hanoi_validator_accepts_disk_off_peg2 :
    hanoi_validator [[1], [], [2]] [([1, 0, 2] : List Int)] = (true, "") ∧
    (1 : Int) ∈ ([[1], [], [2]] : List (List Int)).getD 0 [] := by
  constructor
  · rfl
  · decide

/-! ### C10: from_list / to_list -/

/-- **C10**: for every list of three lists of integers, `from_list` followed
by `to_list` is the identity, the constructed state's `num_disks` is the
total number of disks across the three pegs, and consequently `is_solved`
holds exactly when pegs 0 and 1 are empty. -/
theorem from_list_to_list_spec (a b c : List Int) :
    (HanoiState.from_list [a, b, c]).to_list = [a, b, c] ∧
    (HanoiState.from_list [a, b, c]).numDisks =
      a.length + b.length + c.length ∧
    ((HanoiState.from_list [a, b, c]).is_solved = true ↔
      a = [] ∧ b = []) := by
  have hnum : (HanoiState.from_list [a, b, c]).numDisks =
      a.length + b.length + c.length := by
    simp [HanoiState.from_list]; omega
  refine ⟨rfl, hnum, ?_⟩
  have hgd : ((HanoiState.from_list [a, b, c]).pegs.getD 2 []) = c := rfl
  simp only [HanoiState.is_solved, hgd, hnum, decide_eq_true_eq]
  constructor
  · intro h
    have ha : a.length = 0 := by omega
    have hb : b.length = 0 := by omega
    exact ⟨List.length_eq_zero.mp ha, List.length_eq_zero.mp hb⟩
  · rintro ⟨rfl, rfl⟩
    simp

/-! ### C3: the transition -/

theorem movedState_numDisks (s : HanoiState) (disk : Int) (fp tp : Nat) :
    (s.movedState disk fp tp).numDisks = s.numDisks := rfl

theorem movedState_length (s : HanoiState) (disk : Int) (fp tp : Nat) :
    (s.movedState disk fp tp).pegs.length = s.pegs.length := by
  simp [HanoiState.movedState]

theorem movedState_pegAt_from (s : HanoiState) (disk : Int) (fp tp : Nat)
    (hf : fp < s.pegs.length) (hne : fp ≠ tp) :
    (s.movedState disk fp tp).pegAt fp = (s.pegAt fp).dropLast := by
  unfold HanoiState.movedState HanoiState.pegAt
  rw [getD_set_ne _ tp fp _ _ (fun e => hne e.symm),
    getD_set_self _ fp _ _ hf]

theorem movedState_pegAt_to (s : HanoiState) (disk : Int) (fp tp : Nat)
    (ht : tp < s.pegs.length) (hne : fp ≠ tp) :
    (s.movedState disk fp tp).pegAt tp = s.pegAt tp ++ [disk] := by
  unfold HanoiState.movedState HanoiState.pegAt
  rw [getD_set_self _ tp _ _ (by simpa using ht), getD_set_ne _ fp tp _ _ hne]

theorem movedState_pegAt_other (s : HanoiState) (disk : Int) (fp tp i : Nat)
    (hif : i ≠ fp) (hit : i ≠ tp) :
    (s.movedState disk fp tp).pegAt i = s.pegAt i := by
  unfold HanoiState.movedState HanoiState.pegAt
  rw [getD_set_ne _ tp i _ _ (fun e => hit e.symm),
    getD_set_ne _ fp i _ _ (fun e => hif e.symm)]

/-- **C3**: for a three-peg state and peg indices in range (with distinct
source and target pegs), `HanoiState.move` succeeds exactly when none of the
domain rules is violated — the disk must be on `from_peg`, it must be the
top disk of `from_peg`, and the top disk of `to_peg` (if any) must not be
smaller — and on success it removes the disk from the top of `from_peg`,
places it on top of `to_peg`, and leaves the remaining peg (and
`num_disks`) unchanged. -/
theorem hanoi_move_spec (s : HanoiState) (disk : Int) (fp tp : Nat)
    (hlen : s.pegs.length = 3) (hf : fp < 3) (ht : tp < 3) (hne : fp ≠ tp) :
    ((∃ s2, s.move disk fp tp = .ok s2) ↔
      ¬(disk ∉ s.pegAt fp ∨ (s.pegAt fp).getLast? ≠ some disk ∨
        ∃ x, (s.pegAt tp).getLast? = some x ∧ x < disk)) ∧
    (∀ s2, s.move disk fp tp = .ok s2 →
      s2.numDisks = s.numDisks ∧ s2.pegs.length = 3 ∧
      s2.pegAt fp = (s.pegAt fp).dropLast ∧
      s2.pegAt tp = s.pegAt tp ++ [disk] ∧
      ∀ i, i ≠ fp → i ≠ tp → s2.pegAt i = s.pegAt i) := by
  have hf' : fp < s.pegs.length := by omega
  have ht' : tp < s.pegs.length := by omega
  have hblocks : topBlocks (s.pegs.getD tp []) disk = true ↔
      ∃ x, (s.pegAt tp).getLast? = some x ∧ x < disk := by
    unfold topBlocks HanoiState.pegAt
    cases h : (s.pegs.getD tp []).getLast? <;> simp [h]
  have hok : ∀ s2, s.move disk fp tp = .ok s2 → s2 = s.movedState disk fp tp ∧
      disk ∈ s.pegAt fp ∧ (s.pegAt fp).getLast? = some disk ∧
      ¬∃ x, (s.pegAt tp).getLast? = some x ∧ x < disk := by
    intro s2 h
    unfold HanoiState.move at h
    rw [if_pos hf'] at h
    by_cases hmem : disk ∈ s.pegs.getD fp []
    · rw [if_neg (not_not_intro hmem)] at h
      by_cases htop : (s.pegs.getD fp []).getLast? = some disk
      · rw [if_neg (not_not_intro htop), if_pos ht'] at h
        by_cases hb : topBlocks (s.pegs.getD tp []) disk = true
        · rw [if_pos hb] at h; exact absurd h (by simp)
        · rw [if_neg hb] at h
          refine ⟨(Except.ok.inj h).symm, hmem, htop, ?_⟩
          exact fun hx => hb (hblocks.mpr hx)
      · rw [if_pos htop] at h; exact absurd h (by simp)
    · rw [if_pos hmem] at h; exact absurd h (by simp)
  constructor
  · constructor
    · rintro ⟨s2, h⟩
      obtain ⟨-, hmem, htop, hsmall⟩ := hok s2 h
      push_neg
      exact ⟨hmem, htop, fun x hx => not_lt.mp (fun hlt => hsmall ⟨x, hx, hlt⟩)⟩
    · intro hno
      push_neg at hno
      obtain ⟨hmem, htop, hsmall⟩ := hno
      refine ⟨s.movedState disk fp tp, ?_⟩
      unfold HanoiState.move
      have hmem' : disk ∈ s.pegs.getD fp [] := hmem
      have htop' : (s.pegs.getD fp []).getLast? = some disk := htop
      rw [if_pos hf', if_neg (not_not_intro hmem'),
        if_neg (not_not_intro htop'), if_pos ht']
      have hb : ¬topBlocks (s.pegs.getD tp []) disk = true := by
        intro hb
        obtain ⟨x, hx, hlt⟩ := hblocks.mp hb
        exact absurd hlt (not_lt.mpr (hsmall x hx))
      rw [if_neg hb]
  · intro s2 h
    obtain ⟨h2, -, -, -⟩ := hok s2 h
    subst h2
    refine ⟨rfl, by rw [movedState_length, hlen], ?_, ?_, ?_⟩
    · exact movedState_pegAt_from s disk fp tp hf' hne
    · exact movedState_pegAt_to s disk fp tp ht' hne
    · intro i hif hit
      exact movedState_pegAt_other s disk fp tp i hif hit

/-- Witness for `hanoi_move_spec` at a concrete state and move: from
`[[3,2,1],[],[]]`, moving disk 1 from peg 0 to peg 2 is legal and yields
`[[3,2],[],[1]]`. -/
theorem hanoi_move_spec_witness :
    ∃ s2, (HanoiState.from_list [[3, 2, 1], [], []]).move 1 0 2 = .ok s2 := by
  refine ((hanoi_move_spec (HanoiState.from_list [[3, 2, 1], [], []]) 1 0 2
    rfl (by decide) (by decide) (by decide)).1).mpr ?_
  decide

/-! ### C8: the ground-truth heuristic's disk-1 branch -/

theorem find_disk1_aux_some : ∀ (l : List (List Int)) (i p : Nat),
    p < l.length → (l.getD p []).getLast? = some 1 →
    (∀ q, q < l.length → (l.getD q []).getLast? = some 1 → q = p) →
    find_disk1_aux l i = some (i + p)
  | [], _, p, hp, _, _ => absurd hp (by simp)
  | peg :: rest, i, p, hp, htop, huniq => by
      by_cases hh : peg.getLast? = some 1
      · have hp0 : 0 = p := huniq 0 (by simp) (by simpa using hh)
        subst hp0
        simp [find_disk1_aux, hh]
      · have hp0 : p ≠ 0 := by
          intro e; subst e; exact hh (by simpa using htop)
        obtain ⟨p', rfl⟩ := Nat.exists_eq_succ_of_ne_zero hp0
        have ih := find_disk1_aux_some rest (i + 1) p'
          (by simpa using Nat.lt_of_succ_lt_succ hp)
          (by simpa using htop)
          (fun q hq hqt => by
            have := huniq (q + 1) (by simpa using Nat.succ_lt_succ hq)
              (by simpa using hqt)
            omega)
        simp only [find_disk1_aux, hh, if_false]
        rw [ih]
        congr 1
        omega

theorem find_disk1_aux_none : ∀ (l : List (List Int)) (i : Nat),
    (∀ q, q < l.length → (l.getD q []).getLast? ≠ some 1) →
    find_disk1_aux l i = none
  | [], _, _ => rfl
  | peg :: rest, i, h => by
      have hh : ¬peg.getLast? = some 1 := by simpa using h 0 (by simp)
      simp only [find_disk1_aux, hh, if_false]
      exact find_disk1_aux_none rest (i + 1)
        (fun q hq => by simpa using h (q + 1) (by simpa using Nat.succ_lt_succ hq))

/-- **C8**: whenever disk 1 is the top disk of a (unique) peg `p`,
`compute_hanoi_ground_truth` returns the clockwise disk-1 move
`[1, p, (p + 2) % 3]`; the search branch for a move not involving disk 1 is
reached only on states where disk 1 tops no peg. -/
theorem ground_truth_disk1_spec :
    (∀ (state : List (List Int)) (nd p : Nat), p < state.length →
      (state.getD p []).getLast? = some 1 →
      (∀ q, q < state.length → (state.getD q []).getLast? = some 1 → q = p) →
      compute_hanoi_ground_truth state nd = some (1, p, (p + 2) % 3)) ∧
    (∀ (state : List (List Int)) (nd : Nat),
      (∀ q, q < state.length → (state.getD q []).getLast? ≠ some 1) →
      compute_hanoi_ground_truth state nd = findOtherMove state) := by
  constructor
  · intro state nd p hp htop huniq
    unfold compute_hanoi_ground_truth
    rw [show find_disk1_aux state 0 = some (0 + p) from
      find_disk1_aux_some state 0 p hp htop huniq]
    simp
  · intro state nd hno
    unfold compute_hanoi_ground_truth
    rw [find_disk1_aux_none state 0 hno]

/-- Witness for `ground_truth_disk1_spec`: on `[[3,2],[],[1]]` disk 1 tops
peg 2 and the heuristic moves it clockwise to peg 1. -/
theorem ground_truth_disk1_spec_witness :
    compute_hanoi_ground_truth [[3, 2], [], [1]] 3 = some (1, 2, (2 + 2) % 3) :=
  ground_truth_disk1_spec.1 [[3, 2], [], [1]] 3 2 (by decide) (by decide)
    (by decide)

/-! ### C9: reachability invariants -/

/-- Sequentially apply a list of moves, propagating the first error —
a sequence of `HanoiState.move` calls none of which raises. -/
def applyMoves (s : HanoiState) : List (Int × Nat × Nat) → Except String HanoiState
  | [] => .ok s
  | m :: rest =>
      match s.move m.1 m.2.1 m.2.2 with
      | .error e => .error e
      | .ok s2 => applyMoves s2 rest

/-- The multiset of all disks on all pegs of a state. -/
def disksOf (s : HanoiState) : Multiset Int :=
  (s.pegs.map (fun p => (p : Multiset Int))).sum

/-- The disks `1..n` as a multiset. -/
def initDisks (n : Nat) : Multiset Int :=
  ↑((List.range n).map (fun i : Nat => (i : Int) + 1))

theorem initDisks_nodup (n : Nat) : (initDisks n).Nodup := by
  rw [initDisks, Multiset.coe_nodup]
  exact (List.nodup_range n).map fun i j h => by omega

theorem descList_coe (n : Nat) :
    ((descList n : List Int) : Multiset Int) = initDisks n := by
  induction n with
  | zero => rfl
  | succ k ih =>
      have h1 : ((descList (k + 1) : List Int) : Multiset Int) =
          ((k : Int) + 1) ::ₘ ↑(descList k) := (Multiset.cons_coe _ _).symm
      have h2 : initDisks (k + 1) =
          initDisks k + ({((k : Int) + 1)} : Multiset Int) := by
        rw [initDisks, initDisks, List.range_succ, List.map_append,
          ← Multiset.coe_add]
        rfl
      rw [h1, ih, h2, ← Multiset.singleton_add]
      exact add_comm _ _

theorem descList_chain : ∀ n : Nat, List.Chain' (· > ·) (descList n)
  | 0 => List.chain'_nil
  | 1 => by simp [descList]
  | n + 2 => by
      rw [show descList (n + 2) =
        ((n : Int) + 1 + 1) :: ((n : Int) + 1) :: descList n from rfl]
      rw [List.chain'_cons]
      refine ⟨by omega, ?_⟩
      exact descList_chain (n + 1)

theorem topBlocks_false_iff (l : List Int) (d : Int) :
    topBlocks l d = false ↔ ∀ x, l.getLast? = some x → d ≤ x := by
  unfold topBlocks
  cases h : l.getLast? with
  | none => simp [h]
  | some x => simp [h, not_lt]

theorem mem_of_getLast_some (l : List Int) (d : Int)
    (h : l.getLast? = some d) : d ∈ l := by
  obtain ⟨hne, rfl⟩ := List.mem_getLast?_eq_getLast (by rw [h]; rfl)
  exact List.getLast_mem hne

theorem dropLast_append_getLast_some (l : List Int) (d : Int)
    (h : l.getLast? = some d) : l.dropLast ++ [d] = l :=
  List.dropLast_append_getLast? d (by rw [h]; rfl)

/-- Structure of a successful `HanoiState.move`. -/
theorem move_ok_cases (s : HanoiState) (d : Int) (fp tp : Nat)
    (s2 : HanoiState) (h : s.move d fp tp = .ok s2) :
    s2 = s.movedState d fp tp ∧ fp < s.pegs.length ∧ tp < s.pegs.length ∧
    (s.pegs.getD fp []).getLast? = some d ∧
    topBlocks (s.pegs.getD tp []) d = false := by
  unfold HanoiState.move at h
  by_cases hf : fp < s.pegs.length
  · rw [if_pos hf] at h
    by_cases hmem : d ∈ s.pegs.getD fp []
    · rw [if_neg (not_not_intro hmem)] at h
      by_cases htop : (s.pegs.getD fp []).getLast? = some d
      · rw [if_neg (not_not_intro htop)] at h
        by_cases ht : tp < s.pegs.length
        · rw [if_pos ht] at h
          by_cases hb : topBlocks (s.pegs.getD tp []) d = true
          · rw [if_pos hb] at h; exact absurd h (by simp)
          · rw [if_neg hb] at h
            exact ⟨(Except.ok.inj h).symm, hf, ht, htop,
              Bool.not_eq_true _ ▸ hb⟩
        · rw [if_neg ht] at h; exact absurd h (by simp)
      · rw [if_pos htop] at h; exact absurd h (by simp)
    · rw [if_pos hmem] at h; exact absurd h (by simp)
  · rw [if_neg hf] at h; exact absurd h (by simp)

/-- One legal pop-and-append step preserves strict decrease of the two pegs
it touches and permutes no disks, provided the multiset of all disks is the
duplicate-free `1..n`. -/
theorem step_preserve (n : Nat) (src tgt other : List Int) (d : Int)
    (hsrc : List.Chain' (· > ·) src) (htgt : List.Chain' (· > ·) tgt)
    (htopsrc : src.getLast? = some d)
    (hnb : ∀ x, tgt.getLast? = some x → d ≤ x)
    (hms : (↑src + ↑tgt + ↑other : Multiset Int) = initDisks n) :
    List.Chain' (· > ·) src.dropLast ∧
    List.Chain' (· > ·) (tgt ++ [d]) ∧
    (↑src.dropLast + ↑(tgt ++ [d]) + ↑other : Multiset Int) = initDisks n := by
  have hsrceq : src.dropLast ++ [d] = src :=
    dropLast_append_getLast_some src d htopsrc
  have hstrict : ∀ x, tgt.getLast? = some x → x > d := by
    intro x hx
    rcases lt_or_eq_of_le (hnb x hx) with hlt | heq
    · exact hlt
    · exfalso
      have hdt : d ∈ tgt := mem_of_getLast_some tgt d (heq ▸ hx)
      have hds : d ∈ src := mem_of_getLast_some src d htopsrc
      have hc1 : 1 ≤ Multiset.count d (↑src : Multiset Int) :=
        Multiset.one_le_count_iff_mem.mpr (by exact_mod_cast hds)
      have hc2 : 1 ≤ Multiset.count d (↑tgt : Multiset Int) :=
        Multiset.one_le_count_iff_mem.mpr (by exact_mod_cast hdt)
      have hle : Multiset.count d (initDisks n) ≤ 1 :=
        Multiset.nodup_iff_count_le_one.mp (initDisks_nodup n) d
      rw [← hms] at hle
      simp only [Multiset.count_add] at hle
      omega
  refine ⟨?_, ?_, ?_⟩
  · have : List.Chain' (· > ·) (src.dropLast ++ [d]) := by
      rw [hsrceq]; exact hsrc
    exact (List.chain'_append.mp this).1
  · refine List.chain'_append.mpr ⟨htgt, List.chain'_singleton d, ?_⟩
    intro x hx y hy
    have hx' : tgt.getLast? = some x := hx
    have hy' : d = y := by simpa using hy
    subst hy'
    exact hstrict x hx'
  · have hms' : (↑(src.dropLast ++ [d]) + ↑tgt + ↑other : Multiset Int) =
        initDisks n := by
      rw [hsrceq]; exact hms
    rw [← Multiset.coe_add] at hms' ⊢
    rw [← hms']
    abel

/-- The C9 invariant: three pegs, each strictly decreasing from bottom to
top, holding together exactly the disks `1..n`. -/
def Inv (n : Nat) (s : HanoiState) : Prop :=
  s.pegs.length = 3 ∧ (∀ p ∈ s.pegs, List.Chain' (· > ·) p) ∧
  disksOf s = initDisks n

theorem disksOf_of_pegs (s : HanoiState) (x y z : List Int)
    (h : s.pegs = [x, y, z]) :
    disksOf s = (↑x + ↑y + ↑z : Multiset Int) := by
  rw [disksOf, h]
  simp [add_assoc]

theorem move_preserves_inv (n : Nat) (s : HanoiState) (d : Int) (fp tp : Nat)
    (s2 : HanoiState) (hinv : Inv n s) (h : s.move d fp tp = .ok s2) :
    Inv n s2 := by
  obtain ⟨hlen, hch, hms⟩ := hinv
  obtain ⟨hs2, hf, ht, htop, hb⟩ := move_ok_cases s d fp tp s2 h
  obtain ⟨a, b, c, hpegs⟩ := List.length_eq_three.mp hlen
  rw [hlen] at hf ht
  subst hs2
  have hgd0 : s.pegs.getD 0 [] = a := by rw [hpegs]; rfl
  have hgd1 : s.pegs.getD 1 [] = b := by rw [hpegs]; rfl
  have hgd2 : s.pegs.getD 2 [] = c := by rw [hpegs]; rfl
  have hcha : List.Chain' (· > ·) a := hch a (by rw [hpegs]; simp)
  have hchb : List.Chain' (· > ·) b := hch b (by rw [hpegs]; simp)
  have hchc : List.Chain' (· > ·) c := hch c (by rw [hpegs]; simp)
  have hmsabc : (↑a + ↑b + ↑c : Multiset Int) = initDisks n := by
    rw [← disksOf_of_pegs s a b c hpegs]; exact hms
  have hbLe := (topBlocks_false_iff _ d).mp hb
  interval_cases fp <;> interval_cases tp
  -- fp = 0, tp = 0 (diagonal: pop and re-append the same disk)
  · rw [hgd0] at htop
    have ha : a.dropLast ++ [d] = a := dropLast_append_getLast_some a d htop
    have hp2 : (s.movedState d 0 0).pegs = [a.dropLast ++ [d], b, c] := by
      simp only [HanoiState.movedState, hpegs]; rfl
    rw [ha] at hp2
    exact ⟨by rw [hp2]; rfl, fun p hp => hch p (by rw [hpegs, ← hp2]; exact hp),
      by rw [disksOf_of_pegs _ a b c hp2]; exact hmsabc⟩
  -- fp = 0, tp = 1
  · rw [hgd0] at htop; rw [hgd1] at hbLe
    have hstep := step_preserve n a b c d hcha hchb htop hbLe
      (by rw [← hmsabc])
    have hp2 : (s.movedState d 0 1).pegs = [a.dropLast, b ++ [d], c] := by
      simp only [HanoiState.movedState, hpegs]; rfl
    refine ⟨by rw [hp2]; rfl, ?_, ?_⟩
    · intro p hp
      rw [hp2] at hp; simp at hp
      rcases hp with rfl | rfl | rfl
      exacts [hstep.1, hstep.2.1, hchc]
    · rw [disksOf_of_pegs _ _ _ _ hp2, ← hstep.2.2]
  -- fp = 0, tp = 2
  · rw [hgd0] at htop; rw [hgd2] at hbLe
    have hstep := step_preserve n a c b d hcha hchc htop hbLe
      (by rw [← hmsabc]; abel)
    have hp2 : (s.movedState d 0 2).pegs = [a.dropLast, b, c ++ [d]] := by
      simp only [HanoiState.movedState, hpegs]; rfl
    refine ⟨by rw [hp2]; rfl, ?_, ?_⟩
    · intro p hp
      rw [hp2] at hp; simp at hp
      rcases hp with rfl | rfl | rfl
      exacts [hstep.1, hchb, hstep.2.1]
    · rw [disksOf_of_pegs _ _ _ _ hp2, ← hstep.2.2]; abel
  -- fp = 1, tp = 0
  · rw [hgd1] at htop; rw [hgd0] at hbLe
    have hstep := step_preserve n b a c d hchb hcha htop hbLe
      (by rw [← hmsabc]; abel)
    have hp2 : (s.movedState d 1 0).pegs = [a ++ [d], b.dropLast, c] := by
      simp only [HanoiState.movedState, hpegs]; rfl
    refine ⟨by rw [hp2]; rfl, ?_, ?_⟩
    · intro p hp
      rw [hp2] at hp; simp at hp
      rcases hp with rfl | rfl | rfl
      exacts [hstep.2.1, hstep.1, hchc]
    · rw [disksOf_of_pegs _ _ _ _ hp2, ← hstep.2.2]; abel
  -- fp = 1, tp = 1 (diagonal)
  · rw [hgd1] at htop
    have hbb : b.dropLast ++ [d] = b := dropLast_append_getLast_some b d htop
    have hp2 : (s.movedState d 1 1).pegs = [a, b.dropLast ++ [d], c] := by
      simp only [HanoiState.movedState, hpegs]; rfl
    rw [hbb] at hp2
    exact ⟨by rw [hp2]; rfl, fun p hp => hch p (by rw [hpegs, ← hp2]; exact hp),
      by rw [disksOf_of_pegs _ a b c hp2]; exact hmsabc⟩
  -- fp = 1, tp = 2
  · rw [hgd1] at htop; rw [hgd2] at hbLe
    have hstep := step_preserve n b c a d hchb hchc htop hbLe
      (by rw [← hmsabc]; abel)
    have hp2 : (s.movedState d 1 2).pegs = [a, b.dropLast, c ++ [d]] := by
      simp only [HanoiState.movedState, hpegs]; rfl
    refine ⟨by rw [hp2]; rfl, ?_, ?_⟩
    · intro p hp
      rw [hp2] at hp; simp at hp
      rcases hp with rfl | rfl | rfl
      exacts [hcha, hstep.1, hstep.2.1]
    · rw [disksOf_of_pegs _ _ _ _ hp2, ← hstep.2.2]; abel
  -- fp = 2, tp = 0
  · rw [hgd2] at htop; rw [hgd0] at hbLe
    have hstep := step_preserve n c a b d hchc hcha htop hbLe
      (by rw [← hmsabc]; abel)
    have hp2 : (s.movedState d 2 0).pegs = [a ++ [d], b, c.dropLast] := by
      simp only [HanoiState.movedState, hpegs]; rfl
    refine ⟨by rw [hp2]; rfl, ?_, ?_⟩
    · intro p hp
      rw [hp2] at hp; simp at hp
      rcases hp with rfl | rfl | rfl
      exacts [hstep.2.1, hchb, hstep.1]
    · rw [disksOf_of_pegs _ _ _ _ hp2, ← hstep.2.2]; abel
  -- fp = 2, tp = 1
  · rw [hgd2] at htop; rw [hgd1] at hbLe
    have hstep := step_preserve n c b a d hchc hchb htop hbLe
      (by rw [← hmsabc]; abel)
    have hp2 : (s.movedState d 2 1).pegs = [a, b ++ [d], c.dropLast] := by
      simp only [HanoiState.movedState, hpegs]; rfl
    refine ⟨by rw [hp2]; rfl, ?_, ?_⟩
    · intro p hp
      rw [hp2] at hp; simp at hp
      rcases hp with rfl | rfl | rfl
      exacts [hcha, hstep.2.1, hstep.1]
    · rw [disksOf_of_pegs _ _ _ _ hp2, ← hstep.2.2]; abel
  -- fp = 2, tp = 2 (diagonal)
  · rw [hgd2] at htop
    have hcc : c.dropLast ++ [d] = c := dropLast_append_getLast_some c d htop
    have hp2 : (s.movedState d 2 2).pegs = [a, b, c.dropLast ++ [d]] := by
      simp only [HanoiState.movedState, hpegs]; rfl
    rw [hcc] at hp2
    exact ⟨by rw [hp2]; rfl, fun p hp => hch p (by rw [hpegs, ← hp2]; exact hp),
      by rw [disksOf_of_pegs _ a b c hp2]; exact hmsabc⟩

theorem applyMoves_preserves_inv (n : Nat) :
    ∀ (ms : List (Int × Nat × Nat)) (s s2 : HanoiState),
    Inv n s → applyMoves s ms = .ok s2 → Inv n s2
  | [], s, s2, hinv, h => by
      rw [show applyMoves s [] = .ok s from rfl] at h
      exact (Except.ok.inj h) ▸ hinv
  | m :: rest, s, s2, hinv, h => by
      unfold applyMoves at h
      cases hm : s.move m.1 m.2.1 m.2.2 with
      | error e => rw [hm] at h; exact absurd h (by simp)
      | ok s3 =>
          rw [hm] at h
          exact applyMoves_preserves_inv n rest s3 s2
            (move_preserves_inv n s m.1 m.2.1 m.2.2 s3 hinv hm) h

/-- **C9**: starting from `HanoiState(num_disks)` and applying any sequence
of `HanoiState.move` calls that do not raise, every reachable state keeps
each peg strictly decreasing from bottom to top and holds exactly the disks
`1..num_disks` across the three pegs (no disk duplicated or lost). -/
theorem hanoi_reachable_invariants (n : Nat) (ms : List (Int × Nat × Nat))
    (s2 : HanoiState) (h : applyMoves (HanoiState.init n) ms = .ok s2) :
    (∀ p ∈ s2.pegs, List.Chain' (· > ·) p) ∧
    disksOf s2 = initDisks n := by
  have hinit : Inv n (HanoiState.init n) := by
    refine ⟨rfl, ?_, ?_⟩
    · intro p hp
      rw [show (HanoiState.init n).pegs = [descList n, [], []] from rfl] at hp
      simp at hp
      rcases hp with rfl | rfl
      · exact descList_chain n
      · exact List.chain'_nil
    · rw [disksOf_of_pegs _ (descList n) [] [] rfl, descList_coe]
      simp
  have := applyMoves_preserves_inv n ms (HanoiState.init n) s2 hinit h
  exact ⟨this.2.1, this.2.2⟩

/-- Witness for `hanoi_reachable_invariants`: after the legal move sequence
`[(1, 0, 2)]` from the 2-disk initial state, the invariants hold of the
resulting state `[[2], [], [1]]`. -/
theorem hanoi_reachable_invariants_witness :
    (∀ p ∈ (HanoiState.mk 2 [[2], [], [1]]).pegs, List.Chain' (· > ·) p) ∧
    disksOf (HanoiState.mk 2 [[2], [], [1]]) = initDisks 2 :=
  hanoi_reachable_invariants 2 [(1, 0, 2)] (HanoiState.mk 2 [[2], [], [1]])
    rfl

/-! ### The response parser (`parse_hanoi_response`)

The Python function extracts the move with the regular expression
`move\s*=\s*\[(\d+),\s*(\d+),\s*(\d+)\]` (IGNORECASE), the next state with
`next_state\s*=\s*(\[.*\])` (IGNORECASE and DOTALL, so the greedy `.*` runs
to the last `]` of the text), and parses the captured state with
`json.loads`.  `re.search` returns the leftmost match.  Whitespace and
digits are modelled as their ASCII ranges. -/

/-- ASCII `\s`: space, tab, newline, carriage return, vertical tab,
form feed. -/
def isWsPy (c : Char) : Bool :=
  c = ' ' || c = '\t' || c = '\n' || c = '\r' || c = '\x0b' || c = '\x0c'

/-- `\s*`: drop the longest whitespace run. -/
def dropWs : List Char → List Char
  | [] => []
  | c :: cs => if isWsPy c then dropWs cs else c :: cs

/-- Case-insensitive literal match; returns the rest of the text. -/
def matchCI : List Char → List Char → Option (List Char)
  | [], cs => some cs
  | _ :: _, [] => none
  | l :: ls, c :: cs => if c.toLower = l.toLower then matchCI ls cs else none

/-- Match one exact character; returns the rest of the text. -/
def expectChar (ch : Char) : List Char → Option (List Char)
  | [] => none
  | c :: cs => if c = ch then some cs else none

/-- `\d+` (greedy): the longest leading digit run and the rest. -/
def takeDigits : List Char → List Char × List Char
  | [] => ([], [])
  | c :: cs =>
      if c.isDigit then
        let (ds, r) := takeDigits cs
        (c :: ds, r)
      else ([], c :: cs)

/-- Decimal digits to a number (`int(...)` on a digit string). -/
def digitsToNat (ds : List Char) : Nat :=
  ds.foldl (fun n c => 10 * n + (c.toNat - 48)) 0

/-- Match the move pattern anchored at the start of the text. -/
def matchMoveAt (cs : List Char) : Option (Nat × Nat × Nat) := do
  let r1 ← matchCI "move".data cs
  let r3 ← expectChar '=' (dropWs r1)
  let r5 ← expectChar '[' (dropWs r3)
  let (d1, r6) := takeDigits r5
  guard (d1 ≠ [])
  let r7 ← expectChar ',' r6
  let (d2, r9) := takeDigits (dropWs r7)
  guard (d2 ≠ [])
  let r10 ← expectChar ',' r9
  let (d3, r12) := takeDigits (dropWs r10)
  guard (d3 ≠ [])
  let _ ← expectChar ']' r12
  pure (digitsToNat d1, digitsToNat d2, digitsToNat d3)

/-- `re.search` for the move pattern: leftmost match. -/
def searchMove : List Char → Option (Nat × Nat × Nat)
  | [] => none
  | c :: t =>
      match matchMoveAt (c :: t) with
      | some r => some r
      | none => searchMove t

/-- The prefix of the text up to and including its last `]`,
or none if it has no `]` — the greedy `.*\]` with DOTALL. -/
def lastCloseSplit (cs : List Char) : Option (List Char) :=
  let r2 := cs.reverse.dropWhile (fun c => c ≠ ']')
  if r2.isEmpty then none else some r2.reverse

/-- Match the next_state pattern anchored at the start of the text,
returning the captured group `\[.*\]`. -/
def matchNSAt (cs : List Char) : Option (List Char) := do
  let r1 ← matchCI "next_state".data cs
  let r3 ← expectChar '=' (dropWs r1)
  let r5 ← expectChar '[' (dropWs r3)
  let body ← lastCloseSplit r5
  pure ('[' :: body)

/-- `re.search` for the next_state pattern: leftmost match. -/
def searchNextState : List Char → Option (List Char)
  | [] => none
  | c :: t =>
      match matchNSAt (c :: t) with
      | some r => some r
      | none => searchNextState t

/-- JSON values as produced by `json.loads`.  A number without fraction or
exponent is a Python `int` and carries its value (`num`); a number with a
fraction or exponent becomes a Python `float`, whose IEEE-754 value is
outside this embedding — `fnum` carries the matched numeric text instead —
as do the accepted non-standard constants `NaN`, `Infinity` and
`-Infinity` (`nan`, `inf`, `ninf`). -/
inductive JVal where
  | null : JVal
  | bool (b : Bool) : JVal
  | num (n : Int) : JVal
  | fnum (lexeme : List Char) : JVal
  | nan : JVal
  | inf : JVal
  | ninf : JVal
  | str (s : List Char) : JVal
  | arr (elems : List JVal) : JVal
  | obj (fields : List (List Char × JVal)) : JVal

/-- Case-sensitive literal match (JSON keywords, unlike the IGNORECASE
regexes, are case-sensitive); returns the rest of the text. -/
def matchLit : List Char → List Char → Option (List Char)
  | [], cs => some cs
  | _ :: _, [] => none
  | l :: ls, c :: cs => if c = l then matchLit ls cs else none

def isHexDigit (c : Char) : Bool :=
  c.isDigit || ('a' ≤ c && c ≤ 'f') || ('A' ≤ c && c ≤ 'F')

def hexVal (c : Char) : Nat :=
  if c.isDigit then c.toNat - 48
  else if 'a' ≤ c then c.toNat - 87
  else c.toNat - 55

/-- JSON whitespace: space, tab, newline, carriage return. -/
def isWsJson (c : Char) : Bool :=
  c = ' ' || c = '\t' || c = '\n' || c = '\r'

def jSkip : List Char → List Char
  | [] => []
  | c :: cs => if isWsJson c then jSkip cs else c :: cs

def openBrace : Char := Char.ofNat 123

def closeBrace : Char := Char.ofNat 125

/-- JSON string body after the opening quote: escapes as in
`json.loads`'s `py_scanstring`, including `\uXXXX` (4 hex digits; a high
surrogate followed by an escaped low surrogate combines into one code
point; an unpaired surrogate — which Python keeps as a lone surrogate in
its `str`, something Lean's `Char` cannot carry — degrades to
`Char.ofNat`'s fallback); raw control characters are rejected
(`strict=True`, the default).  The fuel argument only bounds recursion:
every step consumes at least one character, so callers pass
`length + 1`, which never runs out. -/
def jStrGo : Nat → List Char → List Char → Option (List Char × List Char)
  | 0, _, _ => none
  | _ + 1, [], _ => none
  | _ + 1, '"' :: t, acc => some (acc.reverse, t)
  | fuel + 1, '\\' :: 'u' :: h1 :: h2 :: h3 :: h4 :: t, acc =>
      if isHexDigit h1 ∧ isHexDigit h2 ∧ isHexDigit h3 ∧ isHexDigit h4 then
        let u := ((hexVal h1 * 16 + hexVal h2) * 16 + hexVal h3) * 16 +
          hexVal h4
        if 0xD800 ≤ u ∧ u ≤ 0xDBFF then
          match t with
          | '\\' :: 'u' :: g1 :: g2 :: g3 :: g4 :: t2 =>
              if isHexDigit g1 ∧ isHexDigit g2 ∧ isHexDigit g3 ∧
                  isHexDigit g4 then
                let u2 := ((hexVal g1 * 16 + hexVal g2) * 16 + hexVal g3) *
                  16 + hexVal g4
                if 0xDC00 ≤ u2 ∧ u2 ≤ 0xDFFF then
                  jStrGo fuel t2 (Char.ofNat
                    (0x10000 + (u - 0xD800) * 1024 + (u2 - 0xDC00)) :: acc)
                else jStrGo fuel t (Char.ofNat u :: acc)
              else none
          | _ => jStrGo fuel t (Char.ofNat u :: acc)
        else jStrGo fuel t (Char.ofNat u :: acc)
      else none
  | fuel + 1, '\\' :: e :: t, acc =>
      if e = '"' ∨ e = '\\' ∨ e = '/' then jStrGo fuel t (e :: acc)
      else if e = 'n' then jStrGo fuel t ('\n' :: acc)
      else if e = 't' then jStrGo fuel t ('\t' :: acc)
      else if e = 'r' then jStrGo fuel t ('\r' :: acc)
      else if e = 'b' then jStrGo fuel t (Char.ofNat 8 :: acc)
      else if e = 'f' then jStrGo fuel t (Char.ofNat 12 :: acc)
      else none
  | fuel + 1, c :: t, acc =>
      if c.toNat < 32 then none else jStrGo fuel t (c :: acc)

/-- A JSON number after an optional leading `-` (handled by the caller):
the grammar of `json.loads`'s `NUMBER_RE`,
`(0|[1-9]\d+...)(\.\d+)?([eE][-+]?\d+)?` — an integer part with no leading
zero, then an optional fraction and an optional exponent, each kept only
when complete (the regex backtracks to dropping an incomplete trailing
part).  A plain integer is a Python `int`; a fraction or exponent makes it
a `float`, returned as `fnum` with the full matched text. -/
def parseNumTail (neg : Bool) (cs : List Char) : Option (JVal × List Char) :=
  match takeDigits cs with
  | ([], _) => none
  | (d :: ds, r) =>
      if d = '0' ∧ ds ≠ [] then none
      else
        let fracPair :=
          match r with
          | '.' :: rf =>
              match takeDigits rf with
              | ([], _) => (([] : List Char), r)
              | (fs, rr) => ('.' :: fs, rr)
          | _ => (([] : List Char), r)
        let r2 := fracPair.2
        let expPair :=
          match r2 with
          | e :: ('+' :: rest2) =>
              if e = 'e' ∨ e = 'E' then
                match takeDigits rest2 with
                | ([], _) => (([] : List Char), r2)
                | (es, rr) => (e :: '+' :: es, rr)
              else (([] : List Char), r2)
          | e :: ('-' :: rest2) =>
              if e = 'e' ∨ e = 'E' then
                match takeDigits rest2 with
                | ([], _) => (([] : List Char), r2)
                | (es, rr) => (e :: '-' :: es, rr)
              else (([] : List Char), r2)
          | e :: rest =>
              if e = 'e' ∨ e = 'E' then
                match takeDigits rest with
                | ([], _) => (([] : List Char), r2)
                | (es, rr) => (e :: es, rr)
              else (([] : List Char), r2)
          | [] => (([] : List Char), r2)
        if fracPair.1 = [] ∧ expPair.1 = [] then
          some (.num (if neg then -(digitsToNat (d :: ds) : Int)
            else (digitsToNat (d :: ds) : Int)), expPair.2)
        else
          some (.fnum ((if neg then ['-'] else []) ++ (d :: ds) ++
            fracPair.1 ++ expPair.1), expPair.2)

/-- Comma-separated JSON array elements up to the closing bracket
(the opening bracket and a possible empty body have been consumed). -/
def jItems (pv : List Char → Option (JVal × List Char)) :
    Nat → List Char → Option (List JVal × List Char)
  | 0, _ => none
  | n + 1, cs => do
      let (v, r) ← pv cs
      match jSkip r with
      | ',' :: r2 => do
          let (vs, r3) ← jItems pv n (jSkip r2)
          pure (v :: vs, r3)
      | ']' :: r2 => pure ([v], r2)
      | _ => none

/-- Comma-separated JSON object members up to the closing brace. -/
def jFields (pv : List Char → Option (JVal × List Char)) :
    Nat → List Char → Option (List (List Char × JVal) × List Char)
  | 0, _ => none
  | n + 1, cs => do
      let r1 ← expectChar '"' (jSkip cs)
      let (key, r2) ← jStrGo (r1.length + 1) r1 []
      let r3 ← expectChar ':' (jSkip r2)
      let (v, r4) ← pv (jSkip r3)
      match jSkip r4 with
      | ',' :: r5 => do
          let (fs, r6) ← jFields pv n r5
          pure ((key, v) :: fs, r6)
      | c :: r5 =>
          if c = closeBrace then pure ([(key, v)], r5) else none
      | _ => none

/-- One JSON value (fuel-indexed recursive-descent, mirroring the language
accepted by `json.loads`: the case-sensitive literals `null`/`true`/
`false`, strings, arrays, objects, numbers per `NUMBER_RE`, and — accepted
by the default `parse_constant` — `NaN`, `Infinity` and `-Infinity`). -/
def jVal : Nat → List Char → Option (JVal × List Char)
  | 0, _ => none
  | n + 1, cs =>
      match cs with
      | [] => none
      | c :: t =>
          if c = 'n' then
            match matchLit "ull".data t with
            | some r => some (.null, r)
            | none => none
          else if c = 't' then
            match matchLit "rue".data t with
            | some r => some (.bool true, r)
            | none => none
          else if c = 'f' then
            match matchLit "alse".data t with
            | some r => some (.bool false, r)
            | none => none
          else if c = 'N' then
            match matchLit "aN".data t with
            | some r => some (.nan, r)
            | none => none
          else if c = 'I' then
            match matchLit "nfinity".data t with
            | some r => some (.inf, r)
            | none => none
          else if c = '"' then
            match jStrGo (t.length + 1) t [] with
            | some (s, r) => some (.str s, r)
            | none => none
          else if c = '[' then
            match jSkip t with
            | ']' :: r => some (.arr [], r)
            | t1 =>
                match jItems (jVal n) n t1 with
                | some (vs, r) => some (.arr vs, r)
                | none => none
          else if c = openBrace then
            match jSkip t with
            | c2 :: r =>
                if c2 = closeBrace then some (.obj [], r)
                else
                  match jFields (jVal n) n (c2 :: r) with
                  | some (fs, r2) => some (.obj fs, r2)
                  | none => none
            | [] => none
          else if c = '-' then
            match matchLit "Infinity".data t with
            | some r => some (.ninf, r)
            | none => parseNumTail true t
          else if c.isDigit then parseNumTail false (c :: t)
          else none

/-- `json.loads`: one JSON value covering the whole input up to surrounding
whitespace. -/
def jsonLoads (cs : List Char) : Option JVal :=
  match jVal (2 * cs.length + 4) (jSkip cs) with
  | some (v, r) => if jSkip r = [] then some v else none
  | none => none

/-- Embedding of `parse_hanoi_response(raw_text)`: extract the move, then
the next_state capture, then JSON-parse the capture; each failure raises
(`ValueError` for the missing patterns, `JSONDecodeError` from
`json.loads`). -/
def parse_hanoi_response (raw : List Char) :
    Except String (List Int × JVal) :=
  match searchMove raw with
  | none => .error "move not found"
  | some (d, f, t) =>
      match searchNextState raw with
      | none => .error "next_state not found"
      | some cap =>
          match jsonLoads cap with
          | none => .error "invalid json in next_state"
          | some v => .ok ([(d : Int), (f : Int), (t : Int)], v)

/-- **C5**: `parse_hanoi_response` returns a value exactly on interpretable
input: it errors whenever the text has no move pattern, or no next_state
pattern, or the captured next_state text is not valid JSON; otherwise it
returns the action `[disk, from_peg, to_peg]` of the three parsed integers
together with the JSON-parsed resulting state.  It never returns a value on
uninterpretable input. -/
theorem parse_hanoi_response_spec (raw : List Char) :
    (∀ a v, parse_hanoi_response raw = .ok (a, v) →
      ∃ d f t cap, searchMove raw = some (d, f, t) ∧
        a = [(d : Int), (f : Int), (t : Int)] ∧
        searchNextState raw = some cap ∧ jsonLoads cap = some v) ∧
    ((searchMove raw = none ∨ searchNextState raw = none ∨
        (∃ cap, searchNextState raw = some cap ∧ jsonLoads cap = none)) →
      ∃ e, parse_hanoi_response raw = .error e) ∧
    (∀ d f t cap v, searchMove raw = some (d, f, t) →
      searchNextState raw = some cap → jsonLoads cap = some v →
      parse_hanoi_response raw = .ok ([(d : Int), (f : Int), (t : Int)], v)) := by
  rcases hm : searchMove raw with - | ⟨d, f, t⟩
  · have heq : parse_hanoi_response raw = .error "move not found" := by
      unfold parse_hanoi_response; rw [hm]
    refine ⟨?_, fun _ => ⟨_, heq⟩, ?_⟩
    · intro a v h; rw [heq] at h; exact absurd h (by simp)
    · intro d f t cap v hm' _ _; exact absurd hm' (by simp)
  · rcases hns : searchNextState raw with - | cap
    · have heq : parse_hanoi_response raw = .error "next_state not found" := by
        unfold parse_hanoi_response; rw [hm, hns]
      refine ⟨?_, fun _ => ⟨_, heq⟩, ?_⟩
      · intro a v h; rw [heq] at h; exact absurd h (by simp)
      · intro d' f' t' cap v _ hns' _; exact absurd hns' (by simp)
    · have step : parse_hanoi_response raw =
          (match jsonLoads cap with
           | none => Except.error "invalid json in next_state"
           | some v => Except.ok ([(d : Int), (f : Int), (t : Int)], v)) := by
        unfold parse_hanoi_response
        rw [hm, hns]
      rcases hj : jsonLoads cap with - | v
      · have heq : parse_hanoi_response raw =
            .error "invalid json in next_state" := by rw [step, hj]
        refine ⟨?_, fun _ => ⟨_, heq⟩, ?_⟩
        · intro a v h; rw [heq] at h; exact absurd h (by simp)
        · intro d' f' t' cap' v' hm' hns' hj'
          cases Option.some.inj hns'
          rw [hj] at hj'
          exact absurd hj' (by simp)
      · have heq : parse_hanoi_response raw =
            .ok ([(d : Int), (f : Int), (t : Int)], v) := by rw [step, hj]
        refine ⟨?_, ?_, ?_⟩
        · intro a v' h
          rw [heq] at h
          have h' := Except.ok.inj h
          have h1 : ([(d : Int), (f : Int), (t : Int)] : List Int) = a :=
            congrArg Prod.fst h'
          have h2 : v = v' := congrArg Prod.snd h'
          exact ⟨d, f, t, cap, rfl, h1.symm, rfl, h2 ▸ hj⟩
        · intro hbad
          rcases hbad with hbad | hbad | ⟨cap', h1, h2⟩
          · exact absurd hbad (by simp)
          · exact absurd hbad (by simp)
          · cases Option.some.inj h1
            rw [hj] at h2
            exact absurd h2 (by simp)
        · intro d' f' t' cap' v' hm' hns' hj'
          obtain ⟨rfl, rfl, rfl⟩ : d = d' ∧ f = f' ∧ t = t' := by
            have h3 := Option.some.inj hm'
            exact ⟨congrArg Prod.fst h3, congrArg (Prod.fst ∘ Prod.snd) h3,
              congrArg (Prod.snd ∘ Prod.snd) h3⟩
          cases Option.some.inj hns'
          rw [hj] at hj'
          cases Option.some.inj hj'
          exact heq

/-- Witness for `parse_hanoi_response_spec`, applied at a well-formed
response and at a response whose next_state capture is not valid JSON. -/
theorem parse_hanoi_response_spec_witness :
    parse_hanoi_response "move = [1, 0, 2]\nnext_state = [[5], [], [1]]".data =
      .ok ([1, 0, 2],
        .arr [.arr [.num 5], .arr [], .arr [.num 1]]) ∧
    (∃ e, parse_hanoi_response "move = [1, 0, 2]\nnext_state = [oops]".data =
      .error e) :=
  ⟨(parse_hanoi_response_spec _).2.2 1 0 2 "[[5], [], [1]]".data
      (.arr [.arr [.num 5], .arr [], .arr [.num 1]]) rfl rfl rfl,
    (parse_hanoi_response_spec _).2.1
      (Or.inr (Or.inr ⟨"[oops]".data, rfl, rfl⟩))⟩

/-! ### C4: prompt format versus the Red-Flagger's required fields

The demo configures `RedFlagger(required_fields=["action", "next_state"],
strict_format=True)`, while the prompt declares the REQUIRED output format
as the lines `move = [disk, from_peg, to_peg]` and
`next_state = [[peg0_disks], [peg1_disks], [peg2_disks]]`. -/

/-- Whether the pattern is a prefix of the text (case-sensitive). -/
def litAt : List Char → List Char → Bool
  | [], _ => true
  | _ :: _, [] => false
  | p :: ps, c :: cs => if c = p then litAt ps cs else false

/-- Number of (possibly overlapping) occurrences of a pattern in a text. -/
def countSub (pat : List Char) : List Char → Nat
  | [] => 0
  | c :: t => (if litAt pat (c :: t) then 1 else 0) + countSub pat t

/-- An output that follows the output format the Hanoi prompts declare as
REQUIRED: it contains a `move = [...]` line and a `next_state = [...]`
line, written exactly as the prompt and its example show them. -/
def followsDeclaredFormat (cs : List Char) : Bool :=
  decide (1 ≤ countSub "move = [".data cs) &&
    decide (1 ≤ countSub "next_state = [".data cs)

/-- Modelled from the spec: the Red-Flagger's required-fields check
(§4.1) — the implementation of `RedFlagger` is not in the given sources.
Each configured field marker must be present in the raw text; in strict
mode, in a single occurrence. -/
def requiredFieldsOk (required : List (List Char)) (strict : Bool)
    (cs : List Char) : Bool :=
  required.all fun f =>
    if strict then decide (countSub f cs = 1) else decide (1 ≤ countSub f cs)

/-- The demo's configured required-field set. -/
def requiredFieldsHanoi : List (List Char) :=
  ["action".data, "next_state".data]

/-- The example output that the Hanoi strategy prompt itself displays. -/
def promptExampleOutput : List Char :=
  ("move = [1, 0, 2]" ++ "\n" ++ "next_state = [[5, 4, 3, 2], [], [1]]").data

/-- **C4** (counterexample): the prompt's own example output follows the
declared format, yet does not contain the configured required field
`"action"` at all, so the required-fields check (strict or not) rejects it
for a missing field — contradicting the claim that every format-conforming
output contains every configured required field. -/
theorem prompt_example_fails_required_fields :
    followsDeclaredFormat promptExampleOutput = true ∧
    countSub "action".data promptExampleOutput = 0 ∧
    requiredFieldsOk requiredFieldsHanoi true promptExampleOutput = false := by
  refine ⟨by decide, by decide, by decide⟩

theorem litAt_of_append : ∀ (p q cs : List Char),
    litAt (p ++ q) cs = true → litAt p cs = true
  | [], _, _, _ => rfl
  | p :: ps, q, [], h => absurd h (by simp [litAt])
  | p :: ps, q, c :: cs, h => by
      by_cases hc : c = p
      · rw [show litAt (p :: ps) (c :: cs) = litAt ps cs from by
          simp [litAt, hc]]
        refine litAt_of_append ps q cs ?_
        rw [show litAt ((p :: ps) ++ q) (c :: cs) = litAt (ps ++ q) cs from by
          simp [litAt, hc]] at h
        exact h
      · rw [show litAt ((p :: ps) ++ q) (c :: cs) = false from by
          simp [litAt, hc]] at h
        exact absurd h (by simp)

theorem countSub_pos_of_append (p q : List Char) : ∀ cs : List Char,
    1 ≤ countSub (p ++ q) cs → 1 ≤ countSub p cs
  | [], h => h
  | c :: t, h => by
      unfold countSub at h ⊢
      by_cases hl : litAt (p ++ q) (c :: t) = true
      · rw [if_pos (litAt_of_append p q (c :: t) hl)]
        omega
      · rw [if_neg hl] at h
        have := countSub_pos_of_append p q t (by omega)
        omega

/-- **C4** (amended): every output following the prompt's declared format
contains the markers `"move"` and `"next_state"`, but need not contain the
configured field `"action"` — the prompt's own example output does not —
so a format-conforming output can be rejected by the required-fields check
for the configured set `["action", "next_state"]`; the format guarantees
the fields `["move", "next_state"]` instead. -/
theorem declared_format_fields :
    (∀ cs, followsDeclaredFormat cs = true →
      1 ≤ countSub "move".data cs ∧ 1 ≤ countSub "next_state".data cs) ∧
    countSub "action".data promptExampleOutput = 0 ∧
    followsDeclaredFormat promptExampleOutput = true := by
  refine ⟨?_, by decide, by decide⟩
  intro cs h
  rw [followsDeclaredFormat, Bool.and_eq_true, decide_eq_true_eq,
    decide_eq_true_eq] at h
  constructor
  · exact countSub_pos_of_append "move".data " = [".data cs h.1
  · exact countSub_pos_of_append "next_state".data " = [".data cs h.2

/-- Witness for `declared_format_fields` at the prompt's example output. -/
theorem declared_format_fields_witness :
    1 ≤ countSub "move".data promptExampleOutput ∧
    1 ≤ countSub "next_state".data promptExampleOutput :=
  declared_format_fields.1 promptExampleOutput (by decide)

/-! ### The Voter (modelled from the spec)

The `Voter`'s implementation lives in the `synqed` package and is not part
of the given sources; the definitions below are modelled from §4.3 of the
specification: a tally keyed by candidate equality, one sample drawn at a
time (an accepted candidate or a red-flag/parse rejection), the stopping
rule checked after every accepted sample, and `max_votes`/`max_samples`
caps.  A sample stream stands for the Step Runner's successive outputs. -/

structure VoterCfg where
  k : Nat
  maxVotes : Nat
  maxSamples : Nat
  firstToK : Bool

variable {α : Type} [DecidableEq α]

/-- Modelled from the spec: a candidate's current vote count in the tally
(0 when absent). -/
def tallyCount : List (α × Nat) → α → Nat
  | [], _ => 0
  | (b, n) :: rest, a => if b = a then n else tallyCount rest a

/-- Modelled from the spec: increment a candidate's tally entry, creating
it at 1 if new. -/
def bump : List (α × Nat) → α → List (α × Nat)
  | [], a => [(a, 1)]
  | (b, n) :: rest, a =>
      if b = a then (b, n + 1) :: rest else (b, n) :: bump rest a

/-- Modelled from the spec: the leading candidate (maximum count, earliest
tally entry on ties). -/
def leaderOf : List (α × Nat) → Option (α × Nat)
  | [] => none
  | p :: rest =>
      match leaderOf rest with
      | none => some p
      | some q => if q.2 > p.2 then some q else some p

/-- Modelled from the spec: the best count among candidates other than the
leader (0 when there is no competitor). -/
def runnerUpCount : List (α × Nat) → α → Nat
  | [], _ => 0
  | (b, n) :: rest, w =>
      if b = w then runnerUpCount rest w else max n (runnerUpCount rest w)

/-- Modelled from the spec: the stopping rule, checked after an accepted
sample for candidate `c` against the updated tally — first-to-k: some
candidate's count reached `k`; first-to-ahead-by-k: the leading candidate's
count exceeds the second-place count (0 with no competitor) by at least
`k`. -/
def stopDecision (cfg : VoterCfg) (t : List (α × Nat)) (c : α) : Option α :=
  if cfg.firstToK then
    if cfg.k ≤ tallyCount t c then some c else none
  else
    match leaderOf t with
    | some (w, _) =>
        if runnerUpCount t w + cfg.k ≤ tallyCount t w then some w else none
    | none => none

/-- Modelled from the spec: the Voter's sampling loop.  Returns the
decision (winner and final tally, or a step failure) together with the
counts of samples drawn, valid samples, and red-flagged/rejected samples
consumed by this invocation. -/
def voterGo (cfg : VoterCfg) :
    List (Option α) → Nat → Nat → List (α × Nat) →
    Option (α × List (α × Nat)) × Nat × Nat × Nat
  | [], _, _, _ => (none, 0, 0, 0)
  | s :: rest, samples, votes, t =>
      if cfg.maxSamples ≤ samples ∨ cfg.maxVotes ≤ votes then (none, 0, 0, 0)
      else
        match s with
        | none =>
            let r := voterGo cfg rest (samples + 1) votes t
            (r.1, r.2.1 + 1, r.2.2.1, r.2.2.2 + 1)
        | some c =>
            match stopDecision cfg (bump t c) c with
            | some w => (some (w, bump t c), 1, 1, 0)
            | none =>
                let r := voterGo cfg rest (samples + 1) (votes + 1) (bump t c)
                (r.1, r.2.1 + 1, r.2.2.1 + 1, r.2.2.2)

/-- Modelled from the spec: one Voter invocation — configuration errors
(`k = 0`, `max_votes = 0`) fail fast before any sample is drawn. -/
def voterRun (cfg : VoterCfg) (stream : List (Option α)) :
    Option (α × List (α × Nat)) × Nat × Nat × Nat :=
  if cfg.k = 0 ∨ cfg.maxVotes = 0 then (none, 0, 0, 0)
  else voterGo cfg stream 0 0 []

theorem stopDecision_sound (cfg : VoterCfg) (t : List (α × Nat)) (c w : α)
    (h : stopDecision cfg t c = some w) :
    (cfg.firstToK = true → cfg.k ≤ tallyCount t w) ∧
    (cfg.firstToK = false → runnerUpCount t w + cfg.k ≤ tallyCount t w) := by
  unfold stopDecision at h
  cases hfk : cfg.firstToK with
  | true =>
      rw [hfk, if_pos rfl] at h
      by_cases hk : cfg.k ≤ tallyCount t c
      · rw [if_pos hk] at h
        cases Option.some.inj h
        exact ⟨fun _ => hk, fun hf => absurd hf (by simp)⟩
      · rw [if_neg hk] at h
        exact absurd h (by simp)
  | false =>
      rw [hfk] at h
      rw [if_neg (by simp)] at h
      cases hl : leaderOf t with
      | none => rw [hl] at h; exact absurd h (by simp)
      | some p =>
          rw [hl] at h
          obtain ⟨w', n⟩ := p
          replace h : (if runnerUpCount t w' + cfg.k ≤ tallyCount t w' then
              some w' else none) = some w := h
          by_cases hm : runnerUpCount t w' + cfg.k ≤ tallyCount t w'
          · rw [if_pos hm] at h
            cases Option.some.inj h
            exact ⟨fun ht => absurd ht (by simp), fun _ => hm⟩
          · rw [if_neg hm] at h
            exact absurd h (by simp)

theorem voterGo_sound (cfg : VoterCfg) :
    ∀ (stream : List (Option α)) (samples votes : Nat)
      (t : List (α × Nat)) (w : α) (tw : List (α × Nat)),
    (voterGo cfg stream samples votes t).1 = some (w, tw) →
    ((cfg.firstToK = true → cfg.k ≤ tallyCount tw w) ∧
     (cfg.firstToK = false → runnerUpCount tw w + cfg.k ≤ tallyCount tw w))
  | [], _, _, _, _, _, h => absurd h (by simp [voterGo])
  | s :: rest, samples, votes, t, w, tw, h => by
      unfold voterGo at h
      by_cases hcap : cfg.maxSamples ≤ samples ∨ cfg.maxVotes ≤ votes
      · rw [if_pos hcap] at h; exact absurd h (by simp)
      · rw [if_neg hcap] at h
        cases s with
        | none =>
            replace h : (voterGo cfg rest (samples + 1) votes t).1 =
              some (w, tw) := h
            exact voterGo_sound cfg rest (samples + 1) votes t w tw h
        | some c =>
            replace h : ((match stopDecision cfg (bump t c) c with
                | some w => (some (w, bump t c), (1 : Nat), (1 : Nat), (0 : Nat))
                | none =>
                    let r := voterGo cfg rest (samples + 1) (votes + 1) (bump t c)
                    (r.1, r.2.1 + 1, r.2.2.1 + 1, r.2.2.2)) :
                Option (α × List (α × Nat)) × Nat × Nat × Nat).1 =
                some (w, tw) := h
            cases hsd : stopDecision cfg (bump t c) c with
            | none =>
                rw [hsd] at h
                replace h : (voterGo cfg rest (samples + 1) (votes + 1)
                    (bump t c)).1 = some (w, tw) := h
                exact voterGo_sound cfg rest (samples + 1) (votes + 1)
                  (bump t c) w tw h
            | some w' =>
                rw [hsd] at h
                replace h : (some (w', bump t c) :
                    Option (α × List (α × Nat))) = some (w, tw) := h
                have h2 := Option.some.inj h
                have hw : w' = w := congrArg Prod.fst h2
                have htw : bump t c = tw := congrArg Prod.snd h2
                subst hw; subst htw
                exact stopDecision_sound cfg (bump t c) c w' hsd

/-- **C6**: the Voter never declares a winner that has not met its stopping
rule — in first-to-ahead-by-k mode, at the moment of decision, the winner's
count exceeds the runner-up's (0 with no competitor) by at least `k`; in
first-to-k mode, the winner's count is at least `k`. -/
theorem voter_never_premature (cfg : VoterCfg) (stream : List (Option α))
    (w : α) (t : List (α × Nat))
    (h : (voterRun cfg stream).1 = some (w, t)) :
    (cfg.firstToK = true → cfg.k ≤ tallyCount t w) ∧
    (cfg.firstToK = false → runnerUpCount t w + cfg.k ≤ tallyCount t w) := by
  unfold voterRun at h
  by_cases hcfg : cfg.k = 0 ∨ cfg.maxVotes = 0
  · rw [if_pos hcfg] at h; exact absurd h (by simp)
  · rw [if_neg hcfg] at h
    exact voterGo_sound cfg stream 0 0 [] w t h

/-- Witness for `voter_never_premature`: two identical accepted candidates
with `k = 2` in first-to-ahead-by-k mode declare that candidate, whose
margin over the (absent) runner-up is exactly 2. -/
theorem voter_never_premature_witness :
    runnerUpCount [((7 : Nat), 2)] 7 + 2 ≤ tallyCount [((7 : Nat), 2)] 7 :=
  (voter_never_premature ⟨2, 5, 10, false⟩ [some 7, some 7] 7 [(7, 2)]
    (by decide)).2 rfl

/-! ### C7: the sample counters (modelled from the spec) -/

/-- The running counters reported by the engine
(`total_samples`, `total_valid_samples`, `total_red_flagged`). -/
structure Counters where
  total_samples : Nat
  total_valid_samples : Nat
  total_red_flagged : Nat
deriving DecidableEq

/-- Modelled from the spec: the running counter totals after each Voter
invocation of an execution, starting from `acc`. -/
def counterTrace (cfg : VoterCfg) :
    List (List (Option α)) → Counters → List Counters
  | [], _ => []
  | st :: rest, acc =>
      let r := voterRun cfg st
      let acc2 : Counters :=
        ⟨acc.total_samples + r.2.1, acc.total_valid_samples + r.2.2.1,
          acc.total_red_flagged + r.2.2.2⟩
      acc2 :: counterTrace cfg rest acc2

theorem voterGo_counts (cfg : VoterCfg) :
    ∀ (stream : List (Option α)) (samples votes : Nat) (t : List (α × Nat)),
    (voterGo cfg stream samples votes t).2.2.1 +
      (voterGo cfg stream samples votes t).2.2.2 =
      (voterGo cfg stream samples votes t).2.1
  | [], _, _, _ => rfl
  | s :: rest, samples, votes, t => by
      unfold voterGo
      by_cases hcap : cfg.maxSamples ≤ samples ∨ cfg.maxVotes ≤ votes
      · rw [if_pos hcap]; rfl
      · rw [if_neg hcap]
        cases s with
        | none =>
            have ih := voterGo_counts cfg rest (samples + 1) votes t
            show (voterGo cfg rest (samples + 1) votes t).2.2.1 +
              ((voterGo cfg rest (samples + 1) votes t).2.2.2 + 1) =
              (voterGo cfg rest (samples + 1) votes t).2.1 + 1
            omega
        | some c =>
            show ((match stopDecision cfg (bump t c) c with
                | some w => (some (w, bump t c), (1 : Nat), (1 : Nat), (0 : Nat))
                | none =>
                    let r := voterGo cfg rest (samples + 1) (votes + 1) (bump t c)
                    (r.1, r.2.1 + 1, r.2.2.1 + 1, r.2.2.2)) :
                Option (α × List (α × Nat)) × Nat × Nat × Nat).2.2.1 +
              ((match stopDecision cfg (bump t c) c with
                | some w => (some (w, bump t c), (1 : Nat), (1 : Nat), (0 : Nat))
                | none =>
                    let r := voterGo cfg rest (samples + 1) (votes + 1) (bump t c)
                    (r.1, r.2.1 + 1, r.2.2.1 + 1, r.2.2.2)) :
                Option (α × List (α × Nat)) × Nat × Nat × Nat).2.2.2 =
              ((match stopDecision cfg (bump t c) c with
                | some w => (some (w, bump t c), (1 : Nat), (1 : Nat), (0 : Nat))
                | none =>
                    let r := voterGo cfg rest (samples + 1) (votes + 1) (bump t c)
                    (r.1, r.2.1 + 1, r.2.2.1 + 1, r.2.2.2)) :
                Option (α × List (α × Nat)) × Nat × Nat × Nat).2.1
            cases hsd : stopDecision cfg (bump t c) c with
            | none =>
                have ih := voterGo_counts cfg rest (samples + 1) (votes + 1)
                  (bump t c)
                show (voterGo cfg rest (samples + 1) (votes + 1)
                    (bump t c)).2.2.1 + 1 +
                  (voterGo cfg rest (samples + 1) (votes + 1)
                    (bump t c)).2.2.2 =
                  (voterGo cfg rest (samples + 1) (votes + 1)
                    (bump t c)).2.1 + 1
                omega
            | some w => rfl

theorem voterRun_counts (cfg : VoterCfg) (stream : List (Option α)) :
    (voterRun cfg stream).2.2.1 + (voterRun cfg stream).2.2.2 =
      (voterRun cfg stream).2.1 := by
  unfold voterRun
  by_cases hcfg : cfg.k = 0 ∨ cfg.maxVotes = 0
  · rw [if_pos hcfg]; rfl
  · rw [if_neg hcfg]
    exact voterGo_counts cfg stream 0 0 []

theorem counterTrace_invariant (cfg : VoterCfg) :
    ∀ (streams : List (List (Option α))) (acc : Counters),
    acc.total_valid_samples + acc.total_red_flagged = acc.total_samples →
    ∀ c ∈ counterTrace cfg streams acc,
      c.total_valid_samples + c.total_red_flagged = c.total_samples
  | [], _, _, c, hc => absurd hc (by simp [counterTrace])
  | st :: rest, acc, hacc, c, hc => by
      have hinv := voterRun_counts cfg st
      replace hc : c ∈
          (Counters.mk (acc.total_samples + (voterRun cfg st).2.1)
            (acc.total_valid_samples + (voterRun cfg st).2.2.1)
            (acc.total_red_flagged + (voterRun cfg st).2.2.2)) ::
          counterTrace cfg rest
            (Counters.mk (acc.total_samples + (voterRun cfg st).2.1)
              (acc.total_valid_samples + (voterRun cfg st).2.2.1)
              (acc.total_red_flagged + (voterRun cfg st).2.2.2)) := hc
      rcases List.mem_cons.mp hc with rfl | hc
      · show acc.total_valid_samples + (voterRun cfg st).2.2.1 +
          (acc.total_red_flagged + (voterRun cfg st).2.2.2) =
          acc.total_samples + (voterRun cfg st).2.1
        omega
      · exact counterTrace_invariant cfg rest _ (by
          show acc.total_valid_samples + (voterRun cfg st).2.2.1 +
            (acc.total_red_flagged + (voterRun cfg st).2.2.2) =
            acc.total_samples + (voterRun cfg st).2.1
          omega) c hc

/-- **C7**: after every Voter invocation during an execution, the running
counters satisfy
`total_valid_samples + total_red_flagged = total_samples`; the equation
holds at every point of the run, not only at the end. -/
theorem counters_invariant (cfg : VoterCfg)
    (streams : List (List (Option α))) (c : Counters)
    (hc : c ∈ counterTrace cfg streams ⟨0, 0, 0⟩) :
    c.total_valid_samples + c.total_red_flagged = c.total_samples :=
  counterTrace_invariant cfg streams ⟨0, 0, 0⟩ rfl c hc

/-- Witness for `counters_invariant`: two invocations — one with two
accepted samples and a rejection, one with only a rejection — leave the
totals at `(4, 2, 2)`, and `2 + 2 = 4`. -/
theorem counters_invariant_witness :
    (Counters.mk 4 2 2).total_valid_samples +
      (Counters.mk 4 2 2).total_red_flagged =
      (Counters.mk 4 2 2).total_samples :=
  counters_invariant (α := Nat) ⟨2, 5, 10, false⟩
    [[some 7, none, some 7], [none]] ⟨4, 2, 2⟩ (by decide)

/-! ### C1: the end-to-end 3-disk scenario (Executor modelled from the spec) -/

/-- Modelled from the spec: the MDAP Executor's `Running` loop (§4.5) —
the `MdapExecutor` implementation is not in the given sources.  For each
step the Voter's winning candidate is supplied by `winners` (a function of
the step index and current state); the winning action is applied through
the domain transition `HanoiState.move` on the demo's list-state
representation, the action is appended, and the loop fails (no partial
credit) on a missing winner or an illegal transition. -/
def runExecSteps (winners : Nat → List (List Int) → Option (Int × Nat × Nat)) :
    Nat → Nat → List (List Int) → List (Int × Nat × Nat) →
    Option (List (Int × Nat × Nat) × List (List Int))
  | 0, _, st, acc => some (acc.reverse, st)
  | n + 1, idx, st, acc =>
      match winners idx st with
      | none => none
      | some (d, f, t) =>
          match (HanoiState.from_list st).move d f t with
          | .error _ => none
          | .ok s2 => runExecSteps winners n (idx + 1) s2.to_list ((d, f, t) :: acc)

/-- Modelled from the spec: run a full task of `steps` steps from an
initial state. -/
def runExecutor (winners : Nat → List (List Int) → Option (Int × Nat × Nat))
    (steps : Nat) (init : List (List Int)) :
    Option (List (Int × Nat × Nat) × List (List Int)) :=
  runExecSteps winners steps 0 init []

/-- Modelled from the spec: `success` — all steps completed and the
domain's terminal validator (`hanoi_validator`) accepts the final state and
the action sequence (§4.5: a validator rejection yields `Failed`). -/
def execSuccess (winners : Nat → List (List Int) → Option (Int × Nat × Nat))
    (steps : Nat) (init : List (List Int)) : Bool :=
  match runExecutor winners steps init with
  | some (acts, fin) => (hanoi_validator fin acts).1
  | none => false

/-- A Step Runner that always answers with the demo's ground-truth
heuristic `compute_hanoi_ground_truth`. -/
def gtWinners (nd : Nat) : Nat → List (List Int) → Option (Int × Nat × Nat) :=
  fun _ st => compute_hanoi_ground_truth st nd

/-- **C1** (counterexample): with every step's winning candidate equal to
the move given by `compute_hanoi_ground_truth` (the claim's reading of "the
correct move"), the 7-step 3-disk run applies 7 legal moves but merely
cycles disk 1 (the heuristic always moves disk 1, which always tops a peg),
ending in `[[3,2],[],[1]]` — not `[[],[],[1,2,3]]` — with `success =
false`. -/
theorem hanoi3_ground_truth_run_fails :
    runExecutor (gtWinners 3) 7 (HanoiState.init 3).to_list =
      some ([(1, 0, 2), (1, 2, 1), (1, 1, 0), (1, 0, 2), (1, 2, 1),
        (1, 1, 0), (1, 0, 2)], [[3, 2], [], [1]]) ∧
    execSuccess (gtWinners 3) 7 (HanoiState.init 3).to_list = false ∧
    ([[3, 2], [], [1]] : List (List Int)) ≠ [[], [], [1, 2, 3]] := by
  refine ⟨rfl, rfl, by decide⟩

/-- The optimal 3-disk solution — precisely the moves the prompt's strategy
(clockwise smallest disk, then the unique legal other move) prescribes. -/
def optimalMoves3 : List (Int × Nat × Nat) :=
  [(1, 0, 2), (2, 0, 1), (1, 2, 1), (3, 0, 2), (1, 1, 0), (2, 1, 2),
    (1, 0, 2)]

/-- A Step Runner whose winning candidate at step `i` is the `i`-th move of
the optimal 3-disk solution. -/
def optWinners : Nat → List (List Int) → Option (Int × Nat × Nat) :=
  fun i _ => optimalMoves3.get? i

/-- **C1** (amended): with every step's winning candidate the correct move
of the strategy's optimal play (not the `compute_hanoi_ground_truth`
heuristic), the 3-disk 7-step run produces exactly 7 accepted actions, ends
in the solved state `[[],[],[3,2,1]]` (pegs listed bottom-to-top, so disk 3
is at the bottom of peg 2), and reports `success = true`. -/
theorem hanoi3_correct_moves_run_succeeds :
    runExecutor optWinners 7 (HanoiState.init 3).to_list =
      some (optimalMoves3, [[], [], [3, 2, 1]]) ∧
    optimalMoves3.length = 7 ∧
    execSuccess optWinners 7 (HanoiState.init 3).to_list = true := by
  refine ⟨rfl, rfl, rfl⟩

end SynqedSamples
